import Mathlib

/-!
Verification of the hybrid-search and Kanban workflow engine of the
AiEmailbox Go backend.

The definitions below are a shallow embedding of the Go source:

* workflow status constants come from internal/models/email.go;
* the email record and the stored MongoDB document model the fields of
  models.Email relevant to the verified claims (timestamps are modelled as
  natural numbers, which preserves their ordering);
* the repository operations (UpdateStatus, SetSnooze, ListSnoozedDue,
  GetKanban, UpsertEmail, GetByID) come from
  internal/repository/email_repository.go;
* the HTTP handlers (Move, the hybrid SearchEmails pipeline with its merge,
  dedup and fuzzy-fallback stages, and the background sync upsert) come from
  internal/handlers/kanban.go and internal/handlers/email.go;
* the background snooze worker comes from
  internal/services/summary_service.go (StartSnoozeWorker);
* the text utilities (Levenshtein, RemoveAccents) come from
  internal/utils/string_utils.go.
-/

namespace AiEmailbox

/-- Status constant StatusInbox from internal/models/email.go. -/
def StatusInbox : String := "inbox"

/-- Status constant StatusTodo from internal/models/email.go. -/
def StatusTodo : String := "todo"

/-- Status constant StatusInProgress from internal/models/email.go. -/
def StatusInProgress : String := "in_progress"

/-- Status constant StatusDone from internal/models/email.go. -/
def StatusDone : String := "done"

/-- Status constant StatusSnoozed from internal/models/email.go. -/
def StatusSnoozed : String := "snoozed"

/-- The label value used by the repository queries to exclude trashed mail. -/
def trashLabel : String := "TRASH"

/-- The fields of models.Email (internal/models/email.go) used by the claims.
Timestamps (snoozedUntil, receivedAt) are modelled as natural numbers; the
sender structure is flattened to its two string fields.  A zero value
(empty string, none, empty list) models a BSON field that is absent, which
is exactly how the Go driver decodes an absent field into the struct. -/
structure Email where
  id : String
  userId : String
  mailboxId : String
  fromName : String
  fromEmail : String
  subject : String
  body : String
  summary : String
  status : String
  snoozedUntil : Option Nat
  receivedAt : Nat
  labels : List String
deriving DecidableEq, Repr

/-- A stored MongoDB email document: the marshalled models.Email struct fields
plus the separately managed embedding array.  The embedding is written only by
repository.SetEmbedding; models.Email has no embedding field, so an
UpsertEmail `$set` of the struct never touches it. -/
structure EmailDoc where
  fields : Email
  embedding : Option (List Int)
deriving DecidableEq, Repr

/-- The persistent store: the emails collection.  Document `_id`s are the
Gmail string ids (`idFilter` falls back to the plain string for non-ObjectID
ids), so matching a document is string equality on its id field. -/
abbrev Store : Type := List EmailDoc

/-- Effect of repository.UpdateStatus on a matched document
(internal/repository/email_repository.go): `$set status`; additionally
`$unset snoozedUntil` when the new status differs from snoozed, and leave
snoozedUntil untouched when the new status is snoozed. -/
def updateStatusDoc (status : String) (e : Email) : Email :=
  if status ≠ StatusSnoozed then { e with status := status, snoozedUntil := none }
  else { e with status := status }

/-- repository.UpdateStatus: UpdateOne on the document whose `_id` matches
emailID (document ids are unique keys, so at most one document matches);
the filter has no userId clause. -/
def updateStatus (store : Store) (emailID status : String) : Store :=
  store.map (fun d =>
    if d.fields.id = emailID then { d with fields := updateStatusDoc status d.fields } else d)

/-- Effect of repository.SetSnooze on a matched document: `$set` both the
snoozed status and the snoozedUntil time, regardless of the current state. -/
def setSnoozeDoc (t : Nat) (e : Email) : Email :=
  { e with status := StatusSnoozed, snoozedUntil := some t }

/-- repository.SetSnooze: UpdateOne on the document whose `_id` matches
emailID; the filter has no userId clause. -/
def setSnooze (store : Store) (emailID : String) (t : Nat) : Store :=
  store.map (fun d =>
    if d.fields.id = emailID then { d with fields := setSnoozeDoc t d.fields } else d)

/-- Filter of repository.ListSnoozedDue: status equals snoozed and
snoozedUntil `$lte` now (`$lte` on an absent field matches nothing).
No userId clause. -/
def snoozedDueMatch (now : Nat) (d : EmailDoc) : Bool :=
  d.fields.status == StatusSnoozed &&
    (match d.fields.snoozedUntil with
     | some t => decide (t ≤ now)
     | none => false)

/-- repository.ListSnoozedDue: all documents (of every user) passing the
due filter. -/
def listSnoozedDue (store : Store) (now : Nat) : List EmailDoc :=
  store.filter (snoozedDueMatch now)

/-- Filter of repository.GetKanban (the version taking a userID): documents of
this user whose labels array does not contain TRASH (`$ne` on an array
matches when no element equals the value) and whose mailboxId is not TRASH. -/
def getKanbanMatch (userID : String) (d : EmailDoc) : Bool :=
  d.fields.userId == userID &&
    !(d.fields.labels.contains trashLabel) && d.fields.mailboxId != trashLabel

/-- The decoded emails visited by iterating all columns of
repository.GetKanban.  GetKanban groups the matching documents by status
into a map of lists; a loop over all the map's lists visits exactly the
matching documents, so the flat filtered list is the visited collection. -/
def getKanbanDocs (store : Store) (userID : String) : List Email :=
  (store.filter (getKanbanMatch userID)).map (fun d => d.fields)

/-- repository.GetByID: FindOne on the document whose id matches;
no userId clause. -/
def getByID (store : Store) (emailID : String) : Option EmailDoc :=
  store.find? (fun d => d.fields.id == emailID)

/-- The KanbanHandler.Move endpoint (internal/handlers/kanban.go): gin
binding `required` rejects an empty email_id or to_status, and the handler
then calls repository.UpdateStatus directly — there is no validation of
to_status against the canonical status values, and the authenticated user
is not consulted for the update. -/
def moveHandler (store : Store) (emailID toStatus : String) :
    Except String Store :=
  if emailID = "" ∨ toStatus = "" then Except.error ("binding")
  else Except.ok (updateStatus store emailID toStatus)

/-- One tick of services.StartSnoozeWorker
(internal/services/summary_service.go): list the due snoozed emails, then
restore each to inbox via repository.UpdateStatus.  A per-item failure is
logged and the loop continues; `fails` is the set of email ids whose
UpdateStatus call fails, and a failed call leaves the store unchanged. -/
def snoozeTick (store : Store) (now : Nat) (fails : List String) : Store :=
  (listSnoozedDue store now).foldl
    (fun st d => if d.fields.id ∈ fails then st else updateStatus st d.fields.id StatusInbox)
    store

/-- A single Kanban workflow operation on an email record: a Move
(repository.UpdateStatus) to a target status, or a Snooze
(repository.SetSnooze) until a time. -/
inductive KanbanOp where
  | move : String → KanbanOp
  | snooze : Nat → KanbanOp
deriving DecidableEq, Repr

/-- Effect of one Kanban operation on the matched email record. -/
def applyOp (e : Email) : KanbanOp → Email
  | KanbanOp.move s => updateStatusDoc s e
  | KanbanOp.snooze t => setSnoozeDoc t e

/-- Effect of a finite sequence of Move/Snooze operations on an email
record, applied left to right. -/
def applyOps (e : Email) (ops : List KanbanOp) : Email :=
  ops.foldl applyOp e

/-- The invariant claimed by the specification: deferredUntil (snoozedUntil)
is non-null exactly when the status is Snoozed. -/
def snoozeInvariant (e : Email) : Prop :=
  e.snoozedUntil.isSome ↔ e.status = StatusSnoozed

instance (e : Email) : Decidable (snoozeInvariant e) := by
  unfold snoozeInvariant
  infer_instance

/-- A sample email record in the default state (status inbox, not snoozed),
used for concrete counterexamples and witnesses. -/
def sampleEmail : Email :=
  { id := "m1", userId := "alice", mailboxId := "INBOX", fromName := "Ann",
    fromEmail := "ann@example.com", subject := "hello", body := "body",
    summary := "", status := StatusInbox, snoozedUntil := none,
    receivedAt := 10, labels := [] }

/-- The sample email wrapped as a stored document (no embedding yet). -/
def aliceDoc : EmailDoc := { fields := sampleEmail, embedding := none }

/-- The Move endpoint as invoked on behalf of an authenticated caller:
handlers/kanban.go Move never reads the userID from the request context, so
the caller's identity is ignored by the update. -/
def moveAs (_caller : String) (store : Store) (emailID toStatus : String) :
    Except String Store :=
  moveHandler store emailID toStatus

/-- Boolean test for a Move operation whose target is the snoozed status. -/
def movesToSnoozed : KanbanOp → Bool
  | KanbanOp.move s => s == StatusSnoozed
  | KanbanOp.snooze _ => false

theorem applyOp_weak_invariant (e : Email) (op : KanbanOp) :
    (applyOp e op).snoozedUntil.isSome → (applyOp e op).status = StatusSnoozed := by
  cases op with
  | move s =>
      by_cases hs : s = StatusSnoozed
      · subst hs
        simp [applyOp, updateStatusDoc]
      · simp [applyOp, updateStatusDoc, hs]
  | snooze t =>
      simp [applyOp, setSnoozeDoc]

theorem applyOps_weak_invariant (ops : List KanbanOp) :
    ∀ e : Email, (e.snoozedUntil.isSome → e.status = StatusSnoozed) →
      ((applyOps e ops).snoozedUntil.isSome → (applyOps e ops).status = StatusSnoozed) := by
  induction ops with
  | nil => intro e h; simpa [applyOps] using h
  | cons op ops ih =>
      intro e h
      have : applyOps e (op :: ops) = applyOps (applyOp e op) ops := by
        simp [applyOps]
      rw [this]
      exact ih (applyOp e op) (applyOp_weak_invariant e op)

theorem applyOp_strong_invariant (e : Email) (op : KanbanOp)
    (hop : movesToSnoozed op = false) :
    snoozeInvariant (applyOp e op) := by
  cases op with
  | move s =>
      have hs : s ≠ StatusSnoozed := by
        simpa [movesToSnoozed] using hop
      simp [applyOp, updateStatusDoc, snoozeInvariant, hs]
  | snooze t =>
      simp [applyOp, setSnoozeDoc, snoozeInvariant]

theorem applyOps_strong_invariant (ops : List KanbanOp) :
    ∀ e : Email, snoozeInvariant e → (∀ op ∈ ops, movesToSnoozed op = false) →
      snoozeInvariant (applyOps e ops) := by
  induction ops with
  | nil => intro e h _; simpa [applyOps] using h
  | cons op ops ih =>
      intro e h hops
      have hstep : applyOps e (op :: ops) = applyOps (applyOp e op) ops := by
        simp [applyOps]
      rw [hstep]
      exact ih (applyOp e op)
        (applyOp_strong_invariant e op (hops op (List.mem_cons_self op ops)))
        (fun o ho => hops o (List.mem_cons_of_mem op ho))

/-- C1 counterexample: from a valid inbox record, a single Move with target
status snoozed yields status snoozed with a null deferredUntil, violating the
claimed iff-invariant. -/
theorem C1_counterexample :
    snoozeInvariant sampleEmail ∧
    ¬ snoozeInvariant (applyOps sampleEmail [KanbanOp.move StatusSnoozed]) := by
  constructor
  · decide
  · decide

/-- C1 (amended): after any sequence of Move/Snooze operations, a non-null
deferredUntil still implies status Snoozed (so deferredUntil is set only when
snoozed, and any transition out of snoozed clears it); the full
iff-invariant additionally holds whenever no Move in the sequence targets
the snoozed status directly, since Move(id, snoozed) sets the status without
setting deferredUntil. -/
theorem C1_snooze_invariant :
    (∀ (e : Email) (ops : List KanbanOp),
        (e.snoozedUntil.isSome → e.status = StatusSnoozed) →
        ((applyOps e ops).snoozedUntil.isSome →
          (applyOps e ops).status = StatusSnoozed)) ∧
    (∀ (e : Email) (ops : List KanbanOp), snoozeInvariant e →
        (∀ op ∈ ops, movesToSnoozed op = false) →
        snoozeInvariant (applyOps e ops)) :=
  ⟨fun e ops h => applyOps_weak_invariant ops e h,
   fun e ops h hops => applyOps_strong_invariant ops e h hops⟩

/-- C1 witness: the amended invariant evaluated on a concrete record, for a
sequence snoozing then completing the email. -/
theorem C1_snooze_invariant_witness :
    ((applyOps sampleEmail [KanbanOp.move StatusSnoozed, KanbanOp.move StatusDone]).snoozedUntil.isSome →
        (applyOps sampleEmail [KanbanOp.move StatusSnoozed, KanbanOp.move StatusDone]).status = StatusSnoozed) ∧
    snoozeInvariant (applyOps sampleEmail [KanbanOp.snooze 5, KanbanOp.move StatusDone]) :=
  ⟨C1_snooze_invariant.1 sampleEmail _ (by decide),
   C1_snooze_invariant.2 sampleEmail [KanbanOp.snooze 5, KanbanOp.move StatusDone]
     (by decide) (by decide)⟩

theorem updateStatus_mem_of_ne {store : Store} {emailID status : String}
    {d : EmailDoc} (hd : d ∈ store) (hne : d.fields.id ≠ emailID) :
    d ∈ updateStatus store emailID status := by
  have h := List.mem_map_of_mem
    (fun x : EmailDoc =>
      if x.fields.id = emailID then { x with fields := updateStatusDoc status x.fields } else x) hd
  simpa [updateStatus, hne] using h

theorem updateStatus_mem_of_eq {store : Store} {emailID status : String}
    {d : EmailDoc} (hd : d ∈ store) (heq : d.fields.id = emailID) :
    { d with fields := updateStatusDoc status d.fields } ∈ updateStatus store emailID status := by
  have h := List.mem_map_of_mem
    (fun x : EmailDoc =>
      if x.fields.id = emailID then { x with fields := updateStatusDoc status x.fields } else x) hd
  simpa [updateStatus, heq] using h

theorem setSnooze_mem_of_ne {store : Store} {emailID : String} {t : Nat}
    {d : EmailDoc} (hd : d ∈ store) (hne : d.fields.id ≠ emailID) :
    d ∈ setSnooze store emailID t := by
  have h := List.mem_map_of_mem
    (fun x : EmailDoc =>
      if x.fields.id = emailID then { x with fields := setSnoozeDoc t x.fields } else x) hd
  simpa [setSnooze, hne] using h

/-- C3 counterexample: Move with the non-canonical status token garbage does
not fail — it succeeds and stores the bogus status verbatim (clearing
snoozedUntil), rather than rejecting with an InvalidTransition error. -/
theorem C3_counterexample :
    (moveHandler [aliceDoc] ("m1") ("garbage")).isOk = true ∧
    (updateStatus [aliceDoc] ("m1") ("garbage")).map (fun d => d.fields.status) =
      [("garbage")] := by
  constructor
  · decide
  · decide

/-- C3 (amended): Move performs no validation of to_status beyond gin's
required-binding check (which only rejects the empty string): any non-empty
to_status — canonical or not — is accepted, and the move is unconditionally
applied to the matching record regardless of its current status. -/
theorem C3_move_no_validation (store : Store) (emailID toStatus : String)
    (hid : emailID ≠ "") (hst : toStatus ≠ "") :
    moveHandler store emailID toStatus = Except.ok (updateStatus store emailID toStatus) ∧
    ∀ d ∈ store, d.fields.id = emailID →
      { d with fields := updateStatusDoc toStatus d.fields } ∈
        updateStatus store emailID toStatus := by
  constructor
  · simp [moveHandler, hid, hst]
  · intro d hd heq
    exact updateStatus_mem_of_eq hd heq

/-- C3 witness: the amended statement applied at a concrete store and a
non-canonical status. -/
theorem C3_move_no_validation_witness :
    moveHandler [aliceDoc] ("m1") ("garbage") =
      Except.ok (updateStatus [aliceDoc] ("m1") ("garbage")) ∧
    ∀ d ∈ [aliceDoc], d.fields.id = ("m1") →
      { d with fields := updateStatusDoc ("garbage") d.fields } ∈
        updateStatus [aliceDoc] ("m1") ("garbage") :=
  C3_move_no_validation [aliceDoc] ("m1") ("garbage") (by decide) (by decide)

/-- C6 counterexample: a Move invoked on behalf of the caller bob on an email
owned by alice succeeds and mutates alice's record — the update is filtered
by email id only, never by the owner. -/
theorem C6_counterexample :
    sampleEmail.userId ≠ ("bob") ∧
    (moveAs ("bob") [aliceDoc] ("m1") StatusDone).toOption =
      some [{ aliceDoc with fields := { sampleEmail with status := StatusDone } }] ∧
    { aliceDoc with fields := { sampleEmail with status := StatusDone } } ≠ aliceDoc := by
  refine ⟨by decide, by decide, by decide⟩

/-- C6 (amended): the listing query GetKanban is scoped by the owner's id,
but the single-record operations are not: Move ignores the caller entirely,
UpdateStatus/SetSnooze touch the record with the matching id regardless of
its owner (records with other ids are untouched), and the scheduler's
ListSnoozedDue returns due records of every user. -/
theorem C6_scoping (store : Store) (uid emailID s : String) (t now : Nat) :
    (∀ e ∈ getKanbanDocs store uid, e.userId = uid) ∧
    (∀ caller : String, moveAs caller store emailID s = moveHandler store emailID s) ∧
    (∀ d ∈ store, d.fields.id ≠ emailID →
        d ∈ updateStatus store emailID s ∧ d ∈ setSnooze store emailID t) ∧
    (∀ d ∈ store, d.fields.id = emailID →
        { d with fields := updateStatusDoc s d.fields } ∈ updateStatus store emailID s) ∧
    (∀ d ∈ store, snoozedDueMatch now d = true → d ∈ listSnoozedDue store now) := by
  refine ⟨?_, fun _ => rfl, ?_, ?_, ?_⟩
  · intro e he
    simp only [getKanbanDocs, List.mem_map, List.mem_filter] at he
    obtain ⟨d, ⟨_, hmatch⟩, rfl⟩ := he
    simp only [getKanbanMatch, Bool.and_eq_true, beq_iff_eq] at hmatch
    exact hmatch.1.1
  · intro d hd hne
    exact ⟨updateStatus_mem_of_ne hd hne, setSnooze_mem_of_ne hd hne⟩
  · intro d hd heq
    exact updateStatus_mem_of_eq hd heq
  · intro d hd hdue
    exact List.mem_filter.mpr ⟨hd, hdue⟩

/-- C6 witness: the amended scoping facts evaluated on a concrete two-user
store. -/
theorem C6_scoping_witness :
    aliceDoc ∈ updateStatus [aliceDoc] ("other-id") StatusDone ∧
    { aliceDoc with fields := updateStatusDoc StatusDone aliceDoc.fields } ∈
      updateStatus [aliceDoc] ("m1") StatusDone ∧
    { aliceDoc with fields := setSnoozeDoc 3 sampleEmail } ∈
      listSnoozedDue [{ aliceDoc with fields := setSnoozeDoc 3 sampleEmail }] 5 := by
  refine ⟨?_, ?_, ?_⟩
  · exact ((C6_scoping [aliceDoc] ("alice") ("other-id") StatusDone 0 0).2.2.1
      aliceDoc (by decide) (by decide)).1
  · exact (C6_scoping [aliceDoc] ("alice") ("m1") StatusDone 0 0).2.2.2.1
      aliceDoc (by decide) (by decide)
  · exact (C6_scoping [{ aliceDoc with fields := setSnoozeDoc 3 sampleEmail }]
      ("alice") ("x") StatusDone 0 5).2.2.2.2
      { aliceDoc with fields := setSnoozeDoc 3 sampleEmail } (by decide) (by decide)

theorem snoozeTick_foldl_preserve (fails : List String) (L : List EmailDoc) :
    ∀ (st : Store) (x : EmailDoc), x ∈ st → (∀ e ∈ L, e.fields.id ≠ x.fields.id) →
      x ∈ L.foldl
        (fun st d => if d.fields.id ∈ fails then st else updateStatus st d.fields.id StatusInbox)
        st := by
  induction L with
  | nil => intro st x hx _; simpa using hx
  | cons e L ih =>
      intro st x hx hne
      simp only [List.foldl_cons]
      apply ih
      · by_cases hf : e.fields.id ∈ fails
        · simpa [hf] using hx
        · simp only [hf, if_false]
          exact updateStatus_mem_of_ne hx (hne e (List.mem_cons_self e L)).symm
      · intro f hf
        exact hne f (List.mem_cons_of_mem e hf)

/-- C7: an email with status snoozed and a due snoozedUntil, whose own
restore call does not fail, is restored to inbox with a cleared snoozedUntil
by one tick of the snooze worker; the ids in `fails` model per-item
UpdateStatus failures, which are logged and skipped, so failures on other
due emails do not prevent this one from being processed. -/
theorem C7_scheduler_tick (store : Store) (now : Nat) (fails : List String)
    (d : EmailDoc)
    (hnodup : (store.map (fun x => x.fields.id)).Nodup)
    (hmem : d ∈ store) (hdue : snoozedDueMatch now d = true)
    (hfail : d.fields.id ∉ fails) :
    { d with fields := { d.fields with status := StatusInbox, snoozedUntil := none } } ∈
      snoozeTick store now fails := by
  have hdmem : d ∈ listSnoozedDue store now := List.mem_filter.mpr ⟨hmem, hdue⟩
  have hdup : ((listSnoozedDue store now).map (fun x => x.fields.id)).Nodup := by
    have hsub : (listSnoozedDue store now).Sublist store := List.filter_sublist store
    exact hnodup.sublist (hsub.map (fun x => x.fields.id))
  obtain ⟨L1, L2, hsplit⟩ := List.append_of_mem hdmem
  rw [snoozeTick, hsplit]
  rw [hsplit, List.map_append, List.map_cons] at hdup
  obtain ⟨h1, h2, hdisj⟩ := List.nodup_append.mp hdup
  have hdL2 : d.fields.id ∉ L2.map (fun x => x.fields.id) := (List.nodup_cons.mp h2).1
  have hdL1 : d.fields.id ∉ L1.map (fun x => x.fields.id) := by
    intro h
    exact hdisj h (List.mem_cons_self _ _)
  rw [List.foldl_append, List.foldl_cons]
  have hd1 : d ∈ L1.foldl
      (fun st d => if d.fields.id ∈ fails then st else updateStatus st d.fields.id StatusInbox)
      store := by
    apply snoozeTick_foldl_preserve fails L1 store d hmem
    intro e he heq
    exact hdL1 (heq ▸ List.mem_map_of_mem (fun x => x.fields.id) he)
  have hupd : { d with fields := updateStatusDoc StatusInbox d.fields } ∈
      updateStatus (L1.foldl
        (fun st d => if d.fields.id ∈ fails then st else updateStatus st d.fields.id StatusInbox)
        store) d.fields.id StatusInbox :=
    updateStatus_mem_of_eq hd1 rfl
  have hinbox : updateStatusDoc StatusInbox d.fields =
      { d.fields with status := StatusInbox, snoozedUntil := none } := by
    rw [updateStatusDoc, if_pos]
    decide
  rw [if_neg hfail]
  apply snoozeTick_foldl_preserve fails L2 _ _ (by rw [← hinbox]; exact hupd)
  intro e he heq
  exact hdL2 (heq ▸ List.mem_map_of_mem (fun x => x.fields.id) he)

/-- A second snoozed document, due earlier, whose restore call is made to
fail in the C7 witness. -/
def failingDoc : EmailDoc :=
  { fields := { sampleEmail with id := "m0", status := StatusSnoozed, snoozedUntil := some 1 },
    embedding := none }

/-- C7 witness: in a store with two due snoozed emails where the first one's
restore fails, the second is still restored to inbox with snoozedUntil
cleared. -/
theorem C7_scheduler_tick_witness :
    { fields := { sampleEmail with status := StatusInbox, snoozedUntil := none },
      embedding := none } ∈
      snoozeTick [failingDoc,
        { fields := { sampleEmail with status := StatusSnoozed, snoozedUntil := some 3 },
          embedding := none }] 5 [("m0")] := by
  have h := C7_scheduler_tick
    [failingDoc,
      { fields := { sampleEmail with status := StatusSnoozed, snoozedUntil := some 3 },
        embedding := none }] 5 [("m0")]
    { fields := { sampleEmail with status := StatusSnoozed, snoozedUntil := some 3 },
      embedding := none }
    (by decide) (by decide) (by decide) (by decide)
  simpa using h

/-- The accent map of utils.RemoveAccents (internal/utils/string_utils.go),
entry for entry: each Vietnamese accented character paired with its base
Latin letter, lowercase rows first, then the uppercase rows. -/
def accentPairs : List (Char × Char) :=
  [('á', 'a'), ('à', 'a'), ('ả', 'a'), ('ã', 'a'), ('ạ', 'a'), ('ă', 'a'), ('ắ', 'a'),
   ('ằ', 'a'), ('ẳ', 'a'), ('ẵ', 'a'), ('ặ', 'a'), ('â', 'a'), ('ấ', 'a'), ('ầ', 'a'),
   ('ẩ', 'a'), ('ẫ', 'a'), ('ậ', 'a'),
   ('đ', 'd'),
   ('é', 'e'), ('è', 'e'), ('ẻ', 'e'), ('ẽ', 'e'), ('ẹ', 'e'), ('ê', 'e'), ('ế', 'e'),
   ('ề', 'e'), ('ể', 'e'), ('ễ', 'e'), ('ệ', 'e'),
   ('í', 'i'), ('ì', 'i'), ('ỉ', 'i'), ('ĩ', 'i'), ('ị', 'i'),
   ('ó', 'o'), ('ò', 'o'), ('ỏ', 'o'), ('õ', 'o'), ('ọ', 'o'), ('ô', 'o'), ('ố', 'o'),
   ('ồ', 'o'), ('ổ', 'o'), ('ỗ', 'o'), ('ộ', 'o'), ('ơ', 'o'), ('ớ', 'o'), ('ờ', 'o'),
   ('ở', 'o'), ('ỡ', 'o'), ('ợ', 'o'),
   ('ú', 'u'), ('ù', 'u'), ('ủ', 'u'), ('ũ', 'u'), ('ụ', 'u'), ('ư', 'u'), ('ứ', 'u'),
   ('ừ', 'u'), ('ử', 'u'), ('ữ', 'u'), ('ự', 'u'),
   ('ý', 'y'), ('ỳ', 'y'), ('ỷ', 'y'), ('ỹ', 'y'), ('ỵ', 'y'),
   ('Á', 'A'), ('À', 'A'), ('Ả', 'A'), ('Ã', 'A'), ('Ạ', 'A'), ('Ă', 'A'), ('Ắ', 'A'),
   ('Ằ', 'A'), ('Ẳ', 'A'), ('Ẵ', 'A'), ('Ặ', 'A'), ('Â', 'A'), ('Ấ', 'A'), ('Ầ', 'A'),
   ('Ẩ', 'A'), ('Ẫ', 'A'), ('Ậ', 'A'),
   ('Đ', 'D'),
   ('É', 'E'), ('È', 'E'), ('Ẻ', 'E'), ('Ẽ', 'E'), ('Ẹ', 'E'), ('Ê', 'E'), ('Ế', 'E'),
   ('Ề', 'E'), ('Ể', 'E'), ('Ễ', 'E'), ('Ệ', 'E'),
   ('Í', 'I'), ('Ì', 'I'), ('Ỉ', 'I'), ('Ĩ', 'I'), ('Ị', 'I'),
   ('Ó', 'O'), ('Ò', 'O'), ('Ỏ', 'O'), ('Õ', 'O'), ('Ọ', 'O'), ('Ô', 'O'), ('Ố', 'O'),
   ('Ồ', 'O'), ('Ổ', 'O'), ('Ỗ', 'O'), ('Ộ', 'O'), ('Ơ', 'O'), ('Ớ', 'O'), ('Ờ', 'O'),
   ('Ở', 'O'), ('Ỡ', 'O'), ('Ợ', 'O'),
   ('Ú', 'U'), ('Ù', 'U'), ('Ủ', 'U'), ('Ũ', 'U'), ('Ụ', 'U'), ('Ư', 'U'), ('Ứ', 'U'),
   ('Ừ', 'U'), ('Ử', 'U'), ('Ữ', 'U'), ('Ự', 'U'),
   ('Ý', 'Y'), ('Ỳ', 'Y'), ('Ỷ', 'Y'), ('Ỹ', 'Y'), ('Ỵ', 'Y')]

/-- Per-rune effect of utils.RemoveAccents: look the rune up in the accent
map and write the mapped value on a hit, the rune itself otherwise. -/
def removeAccentsChar (c : Char) : Char :=
  (accentPairs.lookup c).getD c

/-- utils.RemoveAccents: rebuild the string, mapping each rune through the
accent table. -/
def RemoveAccents (s : String) : String :=
  ⟨s.data.map removeAccentsChar⟩

theorem lookup_mem_snd {l : List (Char × Char)} {c v : Char}
    (h : l.lookup c = some v) : v ∈ l.map Prod.snd := by
  induction l with
  | nil => simp [List.lookup] at h
  | cons p l ih =>
      rw [List.lookup] at h
      cases hc : (c == p.fst) with
      | true =>
          rw [hc] at h
          simp only [Option.some.injEq] at h
          subst h
          exact List.mem_map_of_mem Prod.snd (List.mem_cons_self p l)
      | false =>
          rw [hc] at h
          exact List.mem_cons_of_mem _ (ih h)

set_option maxRecDepth 40000 in
theorem accent_values_not_keys :
    ∀ p ∈ accentPairs, accentPairs.lookup p.snd = none := by
  decide

theorem removeAccentsChar_idem (c : Char) :
    removeAccentsChar (removeAccentsChar c) = removeAccentsChar c := by
  unfold removeAccentsChar
  cases h : accentPairs.lookup c with
  | none => simp [h]
  | some v =>
      simp only [h, Option.getD_some]
      obtain ⟨p, hp, rfl⟩ := List.mem_map.mp (lookup_mem_snd h)
      rw [accent_values_not_keys p hp]
      rfl

/-- C10: RemoveAccents is idempotent, each character present in the accent
table is mapped to its base Latin letter, and every character outside the
table passes through unchanged. -/
theorem C10_removeAccents :
    (∀ s : String, RemoveAccents (RemoveAccents s) = RemoveAccents s) ∧
    (∀ c v : Char, accentPairs.lookup c = some v → removeAccentsChar c = v) ∧
    (∀ c : Char, accentPairs.lookup c = none → removeAccentsChar c = c) := by
  refine ⟨?_, ?_, ?_⟩
  · intro s
    show String.mk ((s.data.map removeAccentsChar).map removeAccentsChar) =
      String.mk (s.data.map removeAccentsChar)
    rw [List.map_map]
    exact congrArg String.mk
      (List.map_congr_left (fun c _ => removeAccentsChar_idem c))
  · intro c v h
    rw [removeAccentsChar, h]
    rfl
  · intro c h
    rw [removeAccentsChar, h]
    rfl

/-- C10 witness: the mapped and pass-through cases of the claim evaluated on
concrete characters. -/
theorem C10_removeAccents_witness :
    removeAccentsChar ('ế') = ('e') ∧ removeAccentsChar ('x') = ('x') :=
  ⟨C10_removeAccents.2.1 ('ế') ('e') (by decide),
   C10_removeAccents.2.2 ('x') (by decide)⟩

/-- Rune-wise lower casing: utils.Levenshtein first applies strings.ToLower,
which lower-cases the string rune by rune; the per-rune Unicode table is
modelled by Char.toLower.  Every property proved about the distance holds
for any per-rune lower-casing table. -/
def goLower (s : String) : List Char :=
  s.data.map Char.toLower

/-- The inner (j) loop of utils.Levenshtein
(internal/utils/string_utils.go): `prev` is the value of the new row at
position j-1 (the Go code writes it into row[j-1]), the second argument is
the old row from position j-1 on, and the third is the rune slice of s2
from position j-1 on.  Each step computes
val = row[j-1] on equal runes and min(row[j-1]+1, prev+1, row[j]+1)
otherwise, emits the write row[j-1] = prev, and continues with prev = val;
when the runes are exhausted the final write row[m] = prev closes the row.
The middle pattern with an empty old row cannot arise from the call sites
(the old row is always one longer than the remaining runes). -/
def levRowStep (c : Char) : Nat → List Nat → List Char → List Nat
  | prev, _, [] => [prev]
  | prev, d0 :: ds, y :: ys =>
      prev :: levRowStep c
        (if c = y then d0 else min (min (d0 + 1) (prev + 1)) (ds.headD 0 + 1))
        ds ys
  | prev, [], _ :: _ => [prev]

/-- The outer (i) loop of utils.Levenshtein: process each rune of s1 in
turn; row i starts with prev = i. -/
def levLoop : List Char → List Char → Nat → List Nat → List Nat
  | [], _, _, row => row
  | c :: cs, r2, i, row => levLoop cs r2 (i + 1) (levRowStep c i row r2)

/-- utils.Levenshtein: lower-case both strings, take their rune slices,
return the other length when one is empty, and otherwise run the single-row
dynamic program starting from row = [0, 1, ..., m] and read off row[m]. -/
def Levenshtein (s1 s2 : String) : Nat :=
  let r1 := goLower s1
  let r2 := goLower s2
  let n := r1.length
  let m := r2.length
  if n = 0 then m
  else if m = 0 then n
  else (levLoop r1 r2 1 (List.range (m + 1))).getLastD 0

/-- The fuzzyThreshold constant of handlers.SearchEmails. -/
def fuzzyThreshold : Nat := 3

/-- One candidate check of the fuzzy-fallback loop of handlers.SearchEmails
(internal/handlers/email.go): fold accents off the query and the subject;
skip the subject check when their byte lengths (Go len on strings) differ by
more than the threshold, otherwise accept on Levenshtein distance at most
the threshold; when the subject check did not accept and the summary is
non-empty, run the same length-gate-then-distance check on the summary. -/
def fuzzyMatch (query : String) (e : Email) : Bool :=
  let normQuery := RemoveAccents query
  let normSubject := RemoveAccents e.subject
  let subjectHit :=
    if ((normSubject.utf8ByteSize : Int) - (normQuery.utf8ByteSize : Int)).natAbs >
        fuzzyThreshold then
      false
    else
      decide (Levenshtein normQuery normSubject ≤ fuzzyThreshold)
  if subjectHit then true
  else if e.summary ≠ "" then
    let normSummary := RemoveAccents e.summary
    if ((normSummary.utf8ByteSize : Int) - (normQuery.utf8ByteSize : Int)).natAbs >
        fuzzyThreshold then
      false
    else
      decide (Levenshtein normQuery normSummary ≤ fuzzyThreshold)
  else false

/-- The merge map emailMap of handlers.SearchEmails: a Go map from email id
to email, modelled as an association list of the map's entries.  Go maps
have no intrinsic order; the handler's output order over this map is
treated as an arbitrary permutation (Go randomizes map iteration). -/
abbrev EmailMap := List (String × Email)

/-- Go map assignment emailMap[k] = v: replace the entry in place when the
key is present, add the entry otherwise. -/
def mapInsert (m : EmailMap) (k : String) (v : Email) : EmailMap :=
  if m.any (fun p => p.fst == k) then
    m.map (fun p => if p.fst == k then (k, v) else p)
  else m ++ [(k, v)]

/-- The remote pass of the merge: emailMap[e.ID] = *e for every enriched
Gmail result, in order. -/
def insertGmail (gmail : List Email) : EmailMap :=
  gmail.foldl (fun m e => mapInsert m e.id e) []

/-- The local pass of the merge: a local result is added only when its id is
not already in the map, so a remote entry is never displaced. -/
def insertLocal (m : EmailMap) (locals : List Email) : EmailMap :=
  locals.foldl
    (fun m e => if m.any (fun p => p.fst == e.id) then m else mapInsert m e.id e) m

/-- The fallback gate exactly as coded in handlers.SearchEmails:
len(emailMap) == 0 && len(query) > 3, where len(query) counts the bytes of
the raw, untrimmed query string. -/
def codeFallbackGate (query : String) (m : EmailMap) : Bool :=
  m.isEmpty && decide (query.utf8ByteSize > 3)

/-- The rune sequence of a string with leading and trailing whitespace
removed, used to express the spec's "query after trimming". -/
def specTrimmedQuery (s : String) : List Char :=
  ((s.data.dropWhile Char.isWhitespace).reverse.dropWhile Char.isWhitespace).reverse

/-- Modelled from the spec for comparison with the code's gate: the
specification states the fallback runs iff the deduplicated set is empty
and the query, after trimming, is longer than 3 characters. -/
def specFallbackGate (query : String) (m : EmailMap) : Bool :=
  m.isEmpty && decide ((specTrimmedQuery query).length > 3)

/-- The merge and fallback stages of handlers.SearchEmails: merge remote
then local results by id; when the code's gate holds, scan the user's
GetKanban emails and insert every fuzzy match. -/
def searchMerged (store : Store) (uid query : String)
    (gmail locals : List Email) : EmailMap :=
  let m := insertLocal (insertGmail gmail) locals
  if codeFallbackGate query m then
    (getKanbanDocs store uid).foldl
      (fun m e => if fuzzyMatch query e then mapInsert m e.id e else m) m
  else m

/-- An admissible response list of handlers.SearchEmails: the final slice is
built by ranging over the merge map, so the output is the map's values in
Go's (unspecified, randomized) map iteration order — any permutation of
them. -/
def searchOutputs (store : Store) (uid query : String)
    (gmail locals : List Email) (out : List Email) : Prop :=
  out.Perm ((searchMerged store uid query gmail locals).map Prod.snd)

theorem any_key_iff {m : EmailMap} {k : String} :
    m.any (fun p => p.fst == k) = true ↔ k ∈ m.map Prod.fst := by
  rw [List.any_eq_true]
  constructor
  · rintro ⟨p, hp, hk⟩
    exact List.mem_map.mpr ⟨p, hp, beq_iff_eq.mp hk⟩
  · intro hk
    obtain ⟨p, hp, rfl⟩ := List.mem_map.mp hk
    exact ⟨p, hp, beq_self_eq_true _⟩

theorem mapInsert_fst_present {m : EmailMap} {k : String} {v : Email}
    (h : m.any (fun p => p.fst == k) = true) :
    (mapInsert m k v).map Prod.fst = m.map Prod.fst := by
  rw [mapInsert, if_pos h, List.map_map]
  apply List.map_congr_left
  intro p _
  by_cases hp : p.fst = k
  · simp [Function.comp, hp]
  · simp [Function.comp, hp]

theorem mapInsert_fst_absent {m : EmailMap} {k : String} {v : Email}
    (h : m.any (fun p => p.fst == k) = false) :
    (mapInsert m k v).map Prod.fst = m.map Prod.fst ++ [k] := by
  rw [mapInsert, if_neg (by simp [h]), List.map_append]
  rfl

theorem mapInsert_fst_nodup {m : EmailMap} {k : String} {v : Email}
    (h : (m.map Prod.fst).Nodup) : ((mapInsert m k v).map Prod.fst).Nodup := by
  cases hp : m.any (fun p => p.fst == k) with
  | true => rw [mapInsert_fst_present hp]; exact h
  | false =>
      rw [mapInsert_fst_absent hp]
      refine List.Nodup.append h (List.nodup_singleton k) ?_
      intro a ha hak
      rw [List.mem_singleton] at hak
      subst hak
      rw [← any_key_iff, hp] at ha
      exact Bool.false_ne_true ha

theorem mapInsert_key_mem {m : EmailMap} {k : String} {v : Email} {a : String}
    (h : a ∈ m.map Prod.fst) : a ∈ (mapInsert m k v).map Prod.fst := by
  cases hp : m.any (fun p => p.fst == k) with
  | true => rw [mapInsert_fst_present hp]; exact h
  | false => rw [mapInsert_fst_absent hp]; exact List.mem_append_left _ h

theorem mapInsert_self_mem (m : EmailMap) (k : String) (v : Email) :
    k ∈ (mapInsert m k v).map Prod.fst := by
  cases hp : m.any (fun p => p.fst == k) with
  | true => rw [mapInsert_fst_present hp]; exact any_key_iff.mp hp
  | false =>
      rw [mapInsert_fst_absent hp]
      exact List.mem_append_right _ (List.mem_singleton_self k)

theorem lookup_append_of_mem {m l : EmailMap} {a : String}
    (h : a ∈ m.map Prod.fst) : (m ++ l).lookup a = m.lookup a := by
  induction m with
  | nil => simp at h
  | cons p m ih =>
      obtain ⟨k0, v0⟩ := p
      rw [List.cons_append]
      show List.lookup a ((k0, v0) :: (m ++ l)) = List.lookup a ((k0, v0) :: m)
      rw [List.lookup, List.lookup]
      cases hap : (a == k0) with
      | true => rfl
      | false =>
          apply ih
          rcases List.mem_map.mp h with ⟨q, hq, hqa⟩
          rcases List.mem_cons.mp hq with h1 | h2
          · exfalso
            subst h1
            simp only [Prod.fst] at hqa
            rw [hqa] at hap
            simp at hap
          · exact List.mem_map.mpr ⟨q, h2, hqa⟩

theorem foldl_key_mem (f : EmailMap → Email → EmailMap)
    (hf : ∀ m e a, a ∈ m.map Prod.fst → a ∈ (f m e).map Prod.fst) :
    ∀ (L : List Email) (m : EmailMap) (a : String),
      a ∈ m.map Prod.fst → a ∈ (L.foldl f m).map Prod.fst := by
  intro L
  induction L with
  | nil => intro m a h; simpa using h
  | cons e L ih => intro m a h; exact ih (f m e) a (hf m e a h)

theorem foldl_fst_nodup (f : EmailMap → Email → EmailMap)
    (hf : ∀ m e, (m.map Prod.fst).Nodup → ((f m e).map Prod.fst).Nodup) :
    ∀ (L : List Email) (m : EmailMap),
      (m.map Prod.fst).Nodup → ((L.foldl f m).map Prod.fst).Nodup := by
  intro L
  induction L with
  | nil => intro m h; simpa using h
  | cons e L ih => intro m h; exact ih (f m e) (hf m e h)

theorem localStep_key_mem :
    ∀ (m : EmailMap) (e : Email) (a : String), a ∈ m.map Prod.fst →
      a ∈ ((if m.any (fun p => p.fst == e.id) then m else mapInsert m e.id e).map Prod.fst) := by
  intro m e a h
  by_cases hp : m.any (fun p => p.fst == e.id) = true
  · rw [if_pos hp]; exact h
  · rw [if_neg hp]; exact mapInsert_key_mem h

theorem insertGmail_key_mem :
    ∀ (gmail : List Email) (m : EmailMap) (e : Email), e ∈ gmail →
      e.id ∈ ((gmail.foldl (fun m e => mapInsert m e.id e) m).map Prod.fst) := by
  intro gmail
  induction gmail with
  | nil => intro m e h; simp at h
  | cons g L ih =>
      intro m e he
      rw [List.foldl_cons]
      rcases List.mem_cons.mp he with rfl | hL
      · exact foldl_key_mem _ (fun m e a h => mapInsert_key_mem h) L _ _
          (mapInsert_self_mem m e.id e)
      · exact ih _ e hL

theorem insertLocal_lookup_present :
    ∀ (locals : List Email) (m : EmailMap) (a : String),
      a ∈ m.map Prod.fst → (insertLocal m locals).lookup a = m.lookup a := by
  intro locals
  induction locals with
  | nil => intro m a _; rfl
  | cons e L ih =>
      intro m a ha
      have hcons : insertLocal m (e :: L) =
          insertLocal (if m.any (fun p => p.fst == e.id) then m else mapInsert m e.id e) L := by
        simp [insertLocal]
      rw [hcons]
      by_cases hp : m.any (fun p => p.fst == e.id) = true
      · rw [if_pos hp]
        exact ih m a ha
      · rw [if_neg hp]
        have hstep : mapInsert m e.id e = m ++ [(e.id, e)] := by
          rw [mapInsert, if_neg hp]
        rw [hstep]
        have ha' : a ∈ (m ++ [(e.id, e)]).map Prod.fst := by
          rw [List.map_append]
          exact List.mem_append_left _ ha
        calc (insertLocal (m ++ [(e.id, e)]) L).lookup a
            = (m ++ [(e.id, e)]).lookup a := ih (m ++ [(e.id, e)]) a ha'
          _ = m.lookup a := lookup_append_of_mem ha

/-- C5: the merged result of SearchEmails holds each email id at most once,
and for every id returned by the remote source the entry kept in the merged
map is the remote one — the local pass never displaces a remote entry, and
the fuzzy fallback cannot run once a remote result is present. -/
theorem C5_dedup (store : Store) (uid query : String) (gmail locals : List Email) :
    ((searchMerged store uid query gmail locals).map Prod.fst).Nodup ∧
    ∀ id : String, id ∈ gmail.map Email.id →
      (searchMerged store uid query gmail locals).lookup id =
        (insertGmail gmail).lookup id := by
  have hg_nodup : ((insertGmail gmail).map Prod.fst).Nodup :=
    foldl_fst_nodup _ (fun m e h => mapInsert_fst_nodup h) gmail [] (by simp)
  have hbase_nodup : ((insertLocal (insertGmail gmail) locals).map Prod.fst).Nodup := by
    apply foldl_fst_nodup _ ?_ locals _ hg_nodup
    intro m e h
    by_cases hp : m.any (fun p => p.fst == e.id) = true
    · rw [if_pos hp]; exact h
    · rw [if_neg hp]; exact mapInsert_fst_nodup h
  constructor
  · rw [searchMerged]
    by_cases hgate : codeFallbackGate query (insertLocal (insertGmail gmail) locals) = true
    · rw [if_pos hgate]
      apply foldl_fst_nodup _ ?_ _ _ hbase_nodup
      intro m e h
      by_cases hf : fuzzyMatch query e = true
      · rw [if_pos hf]; exact mapInsert_fst_nodup h
      · rw [if_neg hf]; exact h
    · rw [if_neg hgate]; exact hbase_nodup
  · intro id hid
    have hkey : id ∈ (insertGmail gmail).map Prod.fst := by
      obtain ⟨e, he, rfl⟩ := List.mem_map.mp hid
      exact insertGmail_key_mem gmail [] e he
    have hbasekey : id ∈ ((insertLocal (insertGmail gmail) locals).map Prod.fst) :=
      foldl_key_mem _ localStep_key_mem locals _ id hkey
    have hgate : codeFallbackGate query (insertLocal (insertGmail gmail) locals) = false := by
      rw [codeFallbackGate]
      cases hL : insertLocal (insertGmail gmail) locals with
      | nil => rw [hL] at hbasekey; simp at hbasekey
      | cons p l => simp [List.isEmpty]
    rw [searchMerged, if_neg (by simp [hgate])]
    exact insertLocal_lookup_present locals _ id hkey

/-- A remote and a local version of the same email id, for the C5 witness
(the spec's search invoice scenario). -/
def remoteM1 : Email := { sampleEmail with subject := "invoice remote" }

/-- The local variant of the same id for the C5 witness. -/
def localM1 : Email := { sampleEmail with subject := "invoice local" }

/-- C5 witness: one remote hit and one local hit with the same id — the
merged map has a single entry for it, the remote one. -/
theorem C5_dedup_witness :
    ((searchMerged [] ("alice") ("invoice") [remoteM1] [localM1]).map Prod.fst).Nodup ∧
    (searchMerged [] ("alice") ("invoice") [remoteM1] [localM1]).lookup ("m1") =
      (insertGmail [remoteM1]).lookup ("m1") ∧
    (insertGmail [remoteM1]).lookup ("m1") = some remoteM1 :=
  ⟨(C5_dedup [] ("alice") ("invoice") [remoteM1] [localM1]).1,
   (C5_dedup [] ("alice") ("invoice") [remoteM1] [localM1]).2 ("m1") (by decide),
   by decide⟩

theorem foldl_fuzzy_from_fresh (query : String) :
    ∀ (corpus : List Email) (m : EmailMap),
      (∀ e ∈ corpus, ¬ e.id ∈ m.map Prod.fst) → (corpus.map Email.id).Nodup →
      corpus.foldl (fun m e => if fuzzyMatch query e then mapInsert m e.id e else m) m =
        m ++ (corpus.filter (fuzzyMatch query)).map (fun e => (e.id, e)) := by
  intro corpus
  induction corpus with
  | nil => intro m _ _; simp
  | cons e L ih =>
      intro m hfresh hnodup
      rw [List.foldl_cons, List.map_cons, List.nodup_cons] at *
      by_cases hf : fuzzyMatch query e = true
      · rw [if_pos hf]
        have habs : m.any (fun p => p.fst == e.id) = false := by
          cases hany : m.any (fun p => p.fst == e.id) with
          | false => rfl
          | true =>
              exact absurd (any_key_iff.mp hany) (hfresh e (List.mem_cons_self e L))
        have hstep : mapInsert m e.id e = m ++ [(e.id, e)] := by
          rw [mapInsert, if_neg (by simp [habs])]
        rw [hstep, ih (m ++ [(e.id, e)]) ?_ hnodup.2]
        · rw [List.filter_cons_of_pos hf, List.map_cons, List.append_assoc,
            List.singleton_append]
        · intro f hfL hkey
          rw [List.map_append] at hkey
          rcases List.mem_append.mp hkey with h1 | h2
          · exact hfresh f (List.mem_cons_of_mem e hfL) h1
          · simp only [List.map_cons, List.map_nil, List.mem_singleton] at h2
            exact hnodup.1 (h2 ▸ List.mem_map_of_mem Email.id hfL)
      · rw [if_neg hf, ih m (fun f hfL => hfresh f (List.mem_cons_of_mem e hfL)) hnodup.2,
          List.filter_cons_of_neg hf]

/-- C4 counterexample: for the raw query consisting of the letter a followed
by three spaces (4 bytes, trimmed length 1) with zero remote and local hits,
the spec's trimmed gate says the fallback must not run, yet the code's
untrimmed byte-length gate fires and the fuzzy scan returns a hit. -/
theorem C4_counterexample :
    (insertLocal (insertGmail []) [] : EmailMap) = [] ∧
    specFallbackGate ("a   ") [] = false ∧
    codeFallbackGate ("a   ") [] = true ∧
    (searchMerged [{ fields := { sampleEmail with subject := "a" }, embedding := none }]
        ("alice") ("a   ") [] []).map Prod.fst = [("m1")] := by
  refine ⟨rfl, by decide, by decide, by decide⟩

/-- C4 (amended): the fuzzy fallback runs iff the deduplicated remote+local
set is empty and the raw, untrimmed query is longer than 3 bytes (Go's len
counts bytes and the handler never trims); when it runs, the result is
exactly the set of the user's GetKanban emails accepted by the fuzzy check —
a byte-length pre-filter on the folded subject (difference at most 3)
followed by edit distance at most 3, else the same pre-filter and distance
check on a non-empty summary. -/
theorem C4_fallback (store : Store) (uid query : String) (gmail locals : List Email)
    (hnodup : ((getKanbanDocs store uid).map Email.id).Nodup) :
    (codeFallbackGate query (insertLocal (insertGmail gmail) locals) = false →
        searchMerged store uid query gmail locals =
          insertLocal (insertGmail gmail) locals) ∧
    (codeFallbackGate query (insertLocal (insertGmail gmail) locals) = true →
        searchMerged store uid query gmail locals =
          ((getKanbanDocs store uid).filter (fuzzyMatch query)).map (fun e => (e.id, e))) := by
  constructor
  · intro h
    rw [searchMerged, if_neg (by simp [h])]
  · intro h
    have hem : insertLocal (insertGmail gmail) locals = [] := by
      rw [codeFallbackGate, Bool.and_eq_true] at h
      exact List.isEmpty_iff.mp h.1
    rw [searchMerged, if_pos h, hem,
      foldl_fuzzy_from_fresh query _ [] (by simp) hnodup, List.nil_append]

/-- A stored email whose subject is within edit distance 1 of the query
xkcqz, realizing the spec's fuzzy-scenario corpus. -/
def xkcqyDoc : EmailDoc :=
  { fields := { sampleEmail with id := "m2", subject := "xkcqy" }, embedding := none }

/-- C4 witness: with zero remote/local hits, the 2-byte query ab leaves the
result at the (empty) merged set, while the 5-byte query xkcqz triggers the
fuzzy scan, which returns exactly the accepted corpus email. -/
theorem C4_fallback_witness :
    searchMerged [xkcqyDoc] ("alice") ("ab") [] [] =
      insertLocal (insertGmail []) [] ∧
    searchMerged [xkcqyDoc] ("alice") ("xkcqz") [] [] =
      ((getKanbanDocs [xkcqyDoc] ("alice")).filter (fuzzyMatch ("xkcqz"))).map
        (fun e => (e.id, e)) ∧
    ((getKanbanDocs [xkcqyDoc] ("alice")).filter (fuzzyMatch ("xkcqz"))).map
        (fun e => (e.id, e)) =
      [(("m2"), { sampleEmail with id := "m2", subject := "xkcqy" })] :=
  ⟨(C4_fallback [xkcqyDoc] ("alice") ("ab") [] [] (by decide)).1 (by decide),
   (C4_fallback [xkcqyDoc] ("alice") ("xkcqz") [] [] (by decide)).2 (by decide),
   by decide⟩

/-- An older remote hit for the C2 counterexample. -/
def gOld : Email := { sampleEmail with id := "g1", receivedAt := 1 }

/-- A newer remote hit for the C2 counterexample. -/
def gNew : Email := { sampleEmail with id := "g2", receivedAt := 5 }

/-- C2 counterexample: the handler builds its response by ranging over the
merge map, so both orders of the two hits are admissible outputs; the
insertion-order output is not sorted by receivedAt descending, and two
admissible outputs differ — the order is neither sorted nor stable. -/
theorem C2_counterexample :
    searchOutputs [] ("alice") ("query") [gOld, gNew] [] [gOld, gNew] ∧
    ¬ List.Sorted (fun a b : Email => b.receivedAt ≤ a.receivedAt) [gOld, gNew] ∧
    searchOutputs [] ("alice") ("query") [gOld, gNew] [] [gNew, gOld] ∧
    ([gOld, gNew] : List Email) ≠ [gNew, gOld] := by
  have hval : (searchMerged [] ("alice") ("query") [gOld, gNew] []).map Prod.snd =
      [gOld, gNew] := by decide
  refine ⟨?_, ?_, ?_, by decide⟩
  · rw [searchOutputs, hval]
  · intro h
    have := List.rel_of_sorted_cons h gNew (List.mem_singleton_self gNew)
    rw [show gNew.receivedAt = 5 from rfl, show gOld.receivedAt = 1 from rfl] at this
    omega
  · rw [searchOutputs, hval]
    exact List.Perm.swap gOld gNew []

/-- C2 (amended): the response is the merged map's entries in Go map
iteration order: every admissible output is a permutation of the merged
values — the same multiset — and no receivedAt sorting or cross-call order
stability is applied by the code. -/
theorem C2_order (store : Store) (uid query : String) (gmail locals : List Email)
    (out : List Email) (h : searchOutputs store uid query gmail locals out) :
    ∀ e : Email, out.count e =
      ((searchMerged store uid query gmail locals).map Prod.snd).count e :=
  fun e => h.count_eq e

/-- C2 witness: the permutation characterization evaluated on a concrete
pair of hits in swapped order. -/
theorem C2_order_witness :
    ([gNew, gOld] : List Email).count gNew =
      ((searchMerged [] ("alice") ("query") [gOld, gNew] []).map Prod.snd).count gNew :=
  C2_order [] ("alice") ("query") [gOld, gNew] [] [gNew, gOld]
    (by rw [searchOutputs, show (searchMerged [] ("alice") ("query") [gOld, gNew] []).map Prod.snd =
        [gOld, gNew] from by decide]; exact List.Perm.swap gOld gNew []) gNew

/-- Effect of UpsertEmail's `$set: email` on an existing document: the
mongo driver marshals the models.Email struct, omitting fields tagged
omitempty whose value is the zero value.  Of the modelled fields,
snoozedUntil, summary and labels carry omitempty (so an empty incoming
value leaves the stored value in place); id, userId, mailboxId, from,
subject, body, status and receivedAt are always written. -/
def setFields (old : Email) (e : Email) : Email :=
  { id := e.id
    userId := e.userId
    mailboxId := e.mailboxId
    fromName := e.fromName
    fromEmail := e.fromEmail
    subject := e.subject
    body := e.body
    summary := if e.summary = "" then old.summary else e.summary
    status := e.status
    snoozedUntil :=
      match e.snoozedUntil with
      | none => old.snoozedUntil
      | some t => some t
    receivedAt := e.receivedAt
    labels := if e.labels = [] then old.labels else e.labels }

/-- repository.UpsertEmail: UpdateOne on `_id = email.ID` with upsert true —
`$set` the struct fields of a matching document (the document's embedding
field is not part of the struct and is left untouched), or insert a fresh
document when no id matches. -/
def upsertEmail (store : Store) (e : Email) : Store :=
  if store.any (fun d => d.fields.id == e.id) then
    store.map (fun d =>
      if d.fields.id = e.id then { d with fields := setFields d.fields e } else d)
  else store ++ [{ fields := e, embedding := none }]

/-- The per-email body of the background sync goroutine of
handlers.SearchEmails (and handlers.GetEmails): fetch the existing record by
id; when found, copy its Status, SnoozedUntil and Summary onto the incoming
remote email, else default the status to inbox; stamp the owner id; then
UpsertEmail. -/
def preserveFields (existing : EmailDoc) (uid : String) (e : Email) : Email :=
  { e with status := existing.fields.status,
           snoozedUntil := existing.fields.snoozedUntil,
           summary := existing.fields.summary, userId := uid }

def syncEmail (store : Store) (uid : String) (e : Email) : Store :=
  let e' :=
    match getByID store e.id with
    | some existing => preserveFields existing uid e
    | none => { e with status := StatusInbox, userId := uid }
  upsertEmail store e'

theorem find_upsert (e' : Email) :
    ∀ (store : Store) (prior : EmailDoc),
      store.find? (fun d => d.fields.id == e'.id) = some prior →
      (store.map (fun d =>
        if d.fields.id = e'.id then { d with fields := setFields d.fields e' } else d)).find?
          (fun d => d.fields.id == e'.id) =
        some { prior with fields := setFields prior.fields e' } := by
  intro store
  induction store with
  | nil => intro prior h; simp at h
  | cons d store ih =>
      intro prior h
      rw [List.find?] at h
      cases hd : (d.fields.id == e'.id) with
      | true =>
          rw [hd] at h
          simp only [Option.some.injEq] at h
          subst h
          have hde : d.fields.id = e'.id := beq_iff_eq.mp hd
          rw [List.map_cons, if_pos hde, List.find?]
          have hbeq : (({ d with fields := setFields d.fields e' } : EmailDoc).fields.id ==
              e'.id) = true := by
            simp [setFields]
          rw [hbeq]
      | false =>
          rw [hd] at h
          have hde : ¬ d.fields.id = e'.id := by
            intro hh
            rw [hh] at hd
            simp at hd
          rw [List.map_cons, if_neg hde, List.find?, hd]
          exact ih prior h

/-- A previously synced document with a locally generated summary, a
workflow status, a stored embedding and a label, for the C8 theorems. -/
def priorDoc : EmailDoc :=
  { fields :=
      { sampleEmail with
          status := StatusDone, summary := "old local summary", labels := ["news"] },
    embedding := some [1, 2, 3] }

/-- The freshly fetched remote version of the same email: new subject, no
summary, no labels. -/
def incomingM1 : Email := { sampleEmail with subject := "fresh subject", labels := [] }

/-- C8 counterexample: re-ingesting a remote email whose labels slice is
empty does not refresh the stored labels field — labels carries omitempty,
so the empty value is dropped from the `$set` and the prior stored labels
survive, contradicting the claim that all non-preserved fields are
refreshed from the remote data. -/
theorem C8_counterexample :
    getByID [priorDoc] incomingM1.id = some priorDoc ∧
    incomingM1.labels = [] ∧
    (syncEmail [priorDoc] ("alice") incomingM1).map (fun d => d.fields.labels) =
      [["news"]] ∧
    (syncEmail [priorDoc] ("alice") incomingM1).map (fun d => d.fields.labels) ≠
      [incomingM1.labels] := by
  refine ⟨by decide, by decide, by decide, by decide⟩

/-- C8 (amended): when a prior local record with the same id exists, the
upsert-by-id sync keeps the stored status, deferredUntil (snoozedUntil),
summary and embedding equal to the prior record's (in particular a locally
generated non-empty summary is never overwritten by an empty one), stamps
the owner id, and refreshes the always-serialized fields (subject, body,
sender, mailboxId, receivedAt) from the remote data; fields tagged
omitempty (labels) keep their prior stored value whenever the incoming
value is empty, instead of being refreshed. -/
theorem C8_upsert_preserves (store : Store) (uid : String) (e : Email) (prior : EmailDoc)
    (_hnodup : (store.map (fun d => d.fields.id)).Nodup)
    (hprior : getByID store e.id = some prior) :
    ∃ d', getByID (syncEmail store uid e) e.id = some d' ∧
      d'.fields.status = prior.fields.status ∧
      d'.fields.snoozedUntil = prior.fields.snoozedUntil ∧
      d'.fields.summary = prior.fields.summary ∧
      d'.embedding = prior.embedding ∧
      d'.fields.subject = e.subject ∧
      d'.fields.body = e.body ∧
      d'.fields.fromName = e.fromName ∧
      d'.fields.fromEmail = e.fromEmail ∧
      d'.fields.mailboxId = e.mailboxId ∧
      d'.fields.receivedAt = e.receivedAt ∧
      d'.fields.userId = uid ∧
      d'.fields.labels = (if e.labels = [] then prior.fields.labels else e.labels) := by
  have he' : syncEmail store uid e = upsertEmail store (preserveFields prior uid e) := by
    rw [syncEmail, hprior]
  have hid : (preserveFields prior uid e).id = e.id := rfl
  have hfind : store.find? (fun d => d.fields.id == e.id) = some prior := hprior
  have hmem : prior ∈ store := List.mem_of_find?_eq_some hfind
  have hbeq := List.find?_some hfind
  have hany : store.any (fun d => d.fields.id == (preserveFields prior uid e).id) = true := by
    rw [List.any_eq_true]
    exact ⟨prior, hmem, by rw [hid]; exact hbeq⟩
  rw [he', upsertEmail, if_pos hany]
  refine ⟨{ prior with fields := setFields prior.fields (preserveFields prior uid e) },
    ?_, ?_, ?_, ?_, rfl, rfl, rfl, rfl, rfl, rfl, rfl, rfl, ?_⟩
  · rw [getByID]
    have h0 : store.find? (fun d => d.fields.id == (preserveFields prior uid e).id) =
        some prior := by
      rw [hid]
      exact hprior
    exact find_upsert _ store prior h0
  · rfl
  · show (match (preserveFields prior uid e).snoozedUntil with
      | none => prior.fields.snoozedUntil
      | some t => some t) = prior.fields.snoozedUntil
    show (match prior.fields.snoozedUntil with
      | none => prior.fields.snoozedUntil
      | some t => some t) = prior.fields.snoozedUntil
    cases prior.fields.snoozedUntil <;> rfl
  · show (if prior.fields.summary = "" then prior.fields.summary
      else prior.fields.summary) = prior.fields.summary
    split <;> rfl
  · rfl

/-- C8 witness: the amended preservation statement evaluated on a concrete
prior record with a local summary, a snooze, a status, an embedding and a
label, re-ingested from a fresh remote copy. -/
theorem C8_upsert_preserves_witness :
    ∃ d', getByID (syncEmail [priorDoc] ("bob") incomingM1) incomingM1.id = some d' ∧
      d'.fields.status = priorDoc.fields.status ∧
      d'.fields.snoozedUntil = priorDoc.fields.snoozedUntil ∧
      d'.fields.summary = priorDoc.fields.summary ∧
      d'.embedding = priorDoc.embedding ∧
      d'.fields.subject = incomingM1.subject ∧
      d'.fields.body = incomingM1.body ∧
      d'.fields.fromName = incomingM1.fromName ∧
      d'.fields.fromEmail = incomingM1.fromEmail ∧
      d'.fields.mailboxId = incomingM1.mailboxId ∧
      d'.fields.receivedAt = incomingM1.receivedAt ∧
      d'.fields.userId = ("bob") ∧
      d'.fields.labels = (if incomingM1.labels = [] then priorDoc.fields.labels
        else incomingM1.labels) :=
  C8_upsert_preserves [priorDoc] ("bob") incomingM1 priorDoc (by decide) (by decide)

/-- The classic Levenshtein recurrence on rune sequences (Wagner–Fischer):
the distance to or from an empty sequence is the other's length, equal
heads cost nothing, and otherwise one plus the minimum over substitution,
deletion and insertion. -/
def lev : List Char → List Char → Nat
  | [], ys => ys.length
  | xs, [] => xs.length
  | x :: xs, y :: ys =>
      if x = y then lev xs ys
      else 1 + min (min (lev xs ys) (lev (x :: xs) ys)) (lev xs (y :: ys))
termination_by xs ys => xs.length + ys.length
decreasing_by all_goals (simp only [List.length_cons]; omega)

theorem lev_nil_left (ys : List Char) : lev [] ys = ys.length := by
  cases ys <;> rw [lev]

theorem lev_nil_right (xs : List Char) : lev xs [] = xs.length := by
  cases xs with
  | nil => exact lev_nil_left []
  | cons x xs =>
      rw [lev]
      simp

theorem lev_cons_cons (x y : Char) (xs ys : List Char) :
    lev (x :: xs) (y :: ys) =
      if x = y then lev xs ys
      else 1 + min (min (lev xs ys) (lev (x :: xs) ys)) (lev xs (y :: ys)) := by
  rw [lev]

theorem lev_self (a : List Char) : lev a a = 0 := by
  induction a with
  | nil => rw [lev_nil_left]; rfl
  | cons x xs ih => rw [lev_cons_cons, if_pos rfl, ih]

theorem one_add_min (x y : Nat) : 1 + min x y = min (1 + x) (1 + y) := by
  simp only [Nat.min_def]
  split_ifs <;> omega

theorem min_rot (a b c : Nat) : min (min a b) c = min (min a c) b := by
  rw [min_assoc, min_comm b c, ← min_assoc]

theorem lev_symm_aux : ∀ (n : Nat) (a b : List Char), a.length + b.length ≤ n →
    lev a b = lev b a := by
  intro n
  induction n with
  | zero =>
      intro a b h
      have ha : a = [] := List.length_eq_zero.mp (by omega)
      have hb : b = [] := List.length_eq_zero.mp (by omega)
      subst ha hb
      rfl
  | succ n ih =>
      intro a b h
      cases a with
      | nil => rw [lev_nil_left, lev_nil_right]
      | cons x xs =>
          cases b with
          | nil => rw [lev_nil_left, lev_nil_right]
          | cons y ys =>
              rw [lev_cons_cons, lev_cons_cons]
              simp only [List.length_cons] at h
              have h1 : lev xs ys = lev ys xs := ih xs ys (by omega)
              have h2 : lev (x :: xs) ys = lev ys (x :: xs) := ih (x :: xs) ys
                (by simp only [List.length_cons]; omega)
              have h3 : lev xs (y :: ys) = lev (y :: ys) xs := ih xs (y :: ys)
                (by simp only [List.length_cons]; omega)
              by_cases hxy : x = y
              · rw [if_pos hxy, if_pos hxy.symm, h1]
              · rw [if_neg hxy, if_neg (fun hh => hxy hh.symm), h1, h2, h3, min_rot]

theorem lev_symm (a b : List Char) : lev a b = lev b a :=
  lev_symm_aux (a.length + b.length) a b (le_refl _)

theorem min_grid_transpose (a b c d e f g h i : Nat) :
    min (min (min (min a b) c) (min (min d e) f)) (min (min g h) i) =
    min (min (min (min a d) g) (min (min b e) h)) (min (min c f) i) := by
  ac_rfl

theorem lev_append_aux : ∀ (n : Nat) (A B : List Char) (a b : Char),
    A.length + B.length ≤ n →
    lev (A ++ [a]) (B ++ [b]) =
      (if a = b then lev A B
       else 1 + min (min (lev A B) (lev (A ++ [a]) B)) (lev A (B ++ [b]))) := by
  intro n
  induction n with
  | zero =>
      intro A B a b h
      have hA : A = [] := List.length_eq_zero.mp (by omega)
      have hB : B = [] := List.length_eq_zero.mp (by omega)
      subst hA hB
      simp only [List.nil_append, lev_cons_cons]
  | succ n ih =>
      intro A B a b h
      cases A with
      | nil =>
          cases B with
          | nil => simp only [List.nil_append, lev_cons_cons]
          | cons y B' =>
              simp only [List.length_nil, List.length_cons] at h
              have hB := ih [] B' a b (by simp only [List.length_nil]; omega)
              simp only [List.nil_append] at hB
              simp only [List.nil_append, List.cons_append]
              rw [lev_cons_cons a y [] (B' ++ [b]), hB, lev_cons_cons a y [] B']
              simp only [lev_nil_left, List.length_append, List.length_cons,
                List.length_nil]
              generalize lev [a] B' = K
              by_cases hab : a = b
              · by_cases hay : a = y
                · simp only [if_pos hab, if_pos hay]
                · simp only [if_pos hab, if_neg hay]
                  simp only [Nat.min_def]
                  split_ifs <;> omega
              · by_cases hay : a = y
                · simp only [if_neg hab, if_pos hay]
                  simp only [Nat.min_def]
                  split_ifs <;> omega
                · simp only [if_neg hab, if_neg hay]
      | cons x A' =>
          cases B with
          | nil =>
              simp only [List.length_nil, List.length_cons] at h
              have hA := ih A' [] a b (by simp only [List.length_nil]; omega)
              simp only [List.nil_append] at hA
              simp only [List.nil_append, List.cons_append]
              rw [lev_cons_cons x b (A' ++ [a]) [], hA, lev_cons_cons x b A' []]
              simp only [lev_nil_right, List.length_append, List.length_cons,
                List.length_nil]
              generalize lev A' [b] = K
              by_cases hab : a = b
              · by_cases hxb : x = b
                · simp only [if_pos hab, if_pos hxb]
                · simp only [if_pos hab, if_neg hxb]
                  simp only [Nat.min_def]
                  split_ifs <;> omega
              · by_cases hxb : x = b
                · simp only [if_neg hab, if_pos hxb]
                  simp only [Nat.min_def]
                  split_ifs <;> omega
                · simp only [if_neg hab, if_neg hxb]
          | cons y B' =>
              simp only [List.length_cons] at h
              have h1 := ih A' B' a b (by omega)
              have h2 := ih (x :: A') B' a b (by simp only [List.length_cons]; omega)
              have h3 := ih A' (y :: B') a b (by simp only [List.length_cons]; omega)
              simp only [List.cons_append] at h1 h2 h3
              simp only [List.cons_append]
              rw [lev_cons_cons x y (A' ++ [a]) (B' ++ [b]), h1, h2, h3,
                lev_cons_cons x y A' B', lev_cons_cons x y (A' ++ [a]) B',
                lev_cons_cons x y A' (B' ++ [b])]
              generalize lev A' B' = D1
              generalize lev (A' ++ [a]) B' = D2
              generalize lev A' (B' ++ [b]) = D3
              generalize lev (x :: A') B' = D4
              generalize lev (x :: (A' ++ [a])) B' = D5
              generalize lev (x :: A') (B' ++ [b]) = D6
              generalize lev A' (y :: B') = D7
              generalize lev (A' ++ [a]) (y :: B') = D8
              generalize lev A' (y :: (B' ++ [b])) = D9
              by_cases hxy : x = y
              · by_cases hab : a = b
                · simp only [if_pos hxy, if_pos hab]
                · simp only [if_pos hxy, if_neg hab]
              · by_cases hab : a = b
                · simp only [if_neg hxy, if_pos hab]
                · simp only [if_neg hxy, if_neg hab]
                  simp only [← one_add_min]
                  rw [min_grid_transpose]

theorem lev_append (A B : List Char) (a b : Char) :
    lev (A ++ [a]) (B ++ [b]) =
      (if a = b then lev A B
       else 1 + min (min (lev A B) (lev (A ++ [a]) B)) (lev A (B ++ [b]))) :=
  lev_append_aux (A.length + B.length) A B a b (le_refl _)

theorem lev_reverse_aux : ∀ (n : Nat) (A B : List Char), A.length + B.length ≤ n →
    lev A.reverse B.reverse = lev A B := by
  intro n
  induction n with
  | zero =>
      intro A B h
      have hA : A = [] := List.length_eq_zero.mp (by omega)
      have hB : B = [] := List.length_eq_zero.mp (by omega)
      subst hA hB
      rfl
  | succ n ih =>
      intro A B h
      cases A with
      | nil => simp [lev_nil_left]
      | cons x A' =>
          cases B with
          | nil => simp [lev_nil_right]
          | cons y B' =>
              simp only [List.length_cons] at h
              rw [List.reverse_cons, List.reverse_cons, lev_append, lev_cons_cons]
              rw [ih A' B' (by omega)]
              rw [show A'.reverse ++ [x] = (x :: A').reverse from
                  (List.reverse_cons x A').symm,
                ih (x :: A') B' (by simp only [List.length_cons]; omega)]
              rw [show B'.reverse ++ [y] = (y :: B').reverse from
                  (List.reverse_cons y B').symm,
                ih A' (y :: B') (by simp only [List.length_cons]; omega)]

theorem lev_reverse (A B : List Char) : lev A.reverse B.reverse = lev A B :=
  lev_reverse_aux (A.length + B.length) A B (le_refl _)

/-- The quantities held by the Go row during the dynamic program: with A the
reversed runes of s1 consumed so far and B the reversed runes of s2 up to
the current column, the row from that column on is the list of distances
lev A (rev of each further prefix of s2), expressed by growing B on the
left. -/
def rowFrom (A B ys : List Char) : List Nat :=
  match ys with
  | [] => [lev A B]
  | y :: ys' => lev A B :: rowFrom A (y :: B) ys'

theorem levRowStep_spec (c : Char) : ∀ (ys A B : List Char),
    levRowStep c (lev (c :: A) B) (rowFrom A B ys) ys = rowFrom (c :: A) B ys := by
  intro ys
  induction ys with
  | nil => intro A B; rfl
  | cons y ys ih =>
      intro A B
      rw [rowFrom, rowFrom, levRowStep]
      congr 1
      have hhead : (rowFrom A (y :: B) ys).headD 0 = lev A (y :: B) := by
        cases ys <;> rfl
      rw [hhead]
      have hval : (if c = y then lev A B
          else min (min (lev A B + 1) (lev (c :: A) B + 1)) (lev A (y :: B) + 1)) =
          lev (c :: A) (y :: B) := by
        rw [lev_cons_cons]
        by_cases hcy : c = y
        · rw [if_pos hcy, if_pos hcy]
        · rw [if_neg hcy, if_neg hcy]
          generalize lev A B = u
          generalize lev (c :: A) B = v
          generalize lev A (y :: B) = w
          simp only [Nat.min_def]
          split_ifs <;> omega
      rw [hval]
      exact ih A (y :: B)

theorem levLoop_spec (r2 : List Char) : ∀ (cs A : List Char),
    levLoop cs r2 (lev A [] + 1) (rowFrom A [] r2) =
      rowFrom (cs.reverse ++ A) [] r2 := by
  intro cs
  induction cs with
  | nil => intro A; rw [levLoop]; simp
  | cons c cs ih =>
      intro A
      rw [levLoop]
      have h1 : lev A [] + 1 = lev (c :: A) [] := by
        rw [lev_nil_right, lev_nil_right, List.length_cons]
      rw [h1, levRowStep_spec c r2 A [], ih (c :: A)]
      congr 1
      rw [List.reverse_cons, List.append_assoc, List.singleton_append]

theorem rowFrom_nil : ∀ (ys B : List Char),
    rowFrom [] B ys = List.range' B.length (ys.length + 1) := by
  intro ys
  induction ys with
  | nil =>
      intro B
      rw [rowFrom, lev_nil_left]
      rfl
  | cons y ys ih =>
      intro B
      rw [rowFrom, lev_nil_left, ih (y :: B)]
      rw [List.length_cons, List.length_cons, List.range'_succ, List.range'_succ,
        List.range'_succ]

theorem rowFrom_getLastD : ∀ (ys A B : List Char) (d : Nat),
    (rowFrom A B ys).getLastD d = lev A (ys.reverse ++ B) := by
  intro ys
  induction ys with
  | nil => intro A B d; rw [rowFrom]; rfl
  | cons y ys ih =>
      intro A B d
      rw [rowFrom, List.getLastD_cons, ih A (y :: B), List.reverse_cons,
        List.append_assoc, List.singleton_append]

/-- The single-row dynamic program of utils.Levenshtein computes the classic
Levenshtein distance of the lower-cased rune sequences. -/
theorem Levenshtein_eq_lev (s1 s2 : String) :
    Levenshtein s1 s2 = lev (goLower s1) (goLower s2) := by
  show (if (goLower s1).length = 0 then (goLower s2).length
    else if (goLower s2).length = 0 then (goLower s1).length
    else (levLoop (goLower s1) (goLower s2) 1
      (List.range ((goLower s2).length + 1))).getLastD 0) =
    lev (goLower s1) (goLower s2)
  generalize goLower s1 = r1
  generalize goLower s2 = r2
  by_cases h1 : r1.length = 0
  · rw [if_pos h1, List.length_eq_zero.mp h1, lev_nil_left]
  · rw [if_neg h1]
    by_cases h2 : r2.length = 0
    · rw [if_pos h2, List.length_eq_zero.mp h2, lev_nil_right]
    · rw [if_neg h2]
      have hrow : List.range (r2.length + 1) = rowFrom [] [] r2 := by
        rw [rowFrom_nil r2 [], List.length_nil, List.range_eq_range']
      have hone : (1 : Nat) = lev ([] : List Char) [] + 1 := by
        rw [lev_nil_left]
        rfl
      rw [hrow, hone, levLoop_spec r2 r1 [], rowFrom_getLastD]
      rw [List.append_nil, List.append_nil, lev_reverse]

/-- C9: utils.Levenshtein is symmetric, zero on equal inputs, and agrees
with the classic Levenshtein recurrence on the lower-cased rune sequences of
its inputs (so it is case-insensitive and operates on Unicode code points,
not bytes). -/
theorem C9_editDistance :
    (∀ a b : String, Levenshtein a b = Levenshtein b a) ∧
    (∀ a : String, Levenshtein a a = 0) ∧
    (∀ a b : String, Levenshtein a b = lev (goLower a) (goLower b)) := by
  refine ⟨?_, ?_, fun a b => Levenshtein_eq_lev a b⟩
  · intro a b
    rw [Levenshtein_eq_lev, Levenshtein_eq_lev, lev_symm]
  · intro a
    rw [Levenshtein_eq_lev, lev_self]

end AiEmailbox
